import Mathlib

/-!
Verification of the weighted-ticket-range winner-selection engine of the
Launch Pools raffle contracts.

The definitions below are a shallow embedding of the Solidity code:

* `buyTickets`        embeds `BaseRaffle.buyTickets` (BaseRaffle.sol, lines 121-148):
                      the `msg.value >= minTicketPrice` require, the checked
                      addition `totalTickets += msg.value` (Solidity 0.8
                      arithmetic reverts on overflow, Panic 0x11), and the
                      append of a `TicketRange` to `participants`.
* `binSearch`         embeds the while loop of `BaseRaffle._selectWinner`
                      (lines 255-268).
* `selectWinner`      embeds `BaseRaffle._selectWinner` (lines 248-269):
                      the `participants.length > 0` require, the target
                      computation `uint256(entropySeed) % totalTickets`
                      (EVM `MOD` with a zero modulus is a Panic 0x12, modelled
                      by the `panicDivisionByZero` error), the loop and the
                      final read `participants[left].owner`.
* `previewWinner`     embeds `SingleWinnerRaffle.previewWinner` (lines 86-91).
* `binSearchV2`, `selectWinnerV2`
                      embed the historical `ProjectRaffle._selectWinner` from
                      the unnamed source file part_010 (lines 260-282), whose
                      loop tests `cumulativeTickets[mid] <= randomTicket`.

Addresses are modelled as natural numbers (only equality of owners matters).
256-bit machine integers are modelled as `Nat` with the explicit bound
`U256 = 2 ^ 256`; Solidity 0.8 checked arithmetic rejects any result
reaching that bound instead of wrapping.
A reverted call returns `Except.error` and, the embedding being functional,
leaves the caller state untouched.
-/

/-- Size of the EVM word domain: `uint256` values lie in `[0, U256)`. -/
def U256 : Nat := 2 ^ 256

/-- One entry per contribution event, as in `BaseRaffle.TicketRange`. -/
structure TicketRange where
  owner : Nat
  upperBound : Nat
deriving DecidableEq

/-- The raffle ledger state: the storage array `participants` and the
running total `totalTickets` of `BaseRaffle`. -/
structure RaffleLedger where
  participants : List TicketRange
  totalTickets : Nat
deriving DecidableEq

/-- The distinct revert causes of the embedded functions.
`invalidWeight` is the revert `Amount below minimum ticket price` (the spec
`InvalidWeight`); `overflow` is the Solidity 0.8 checked-addition Panic 0x11;
`noParticipants` is the revert `No participants`; `noCumulative` is the revert
`Cumulative array not built` of the historical version; `panicDivisionByZero`
is the EVM Panic 0x12 raised by `%` with a zero modulus. -/
inductive RaffleError where
  | invalidWeight
  | overflow
  | noParticipants
  | noCumulative
  | panicDivisionByZero
deriving DecidableEq

/-- The ledger at campaign creation: no participants, zero total. -/
def emptyLedger : RaffleLedger := ⟨[], 0⟩

/-- The sequence of `upperBound` values of the ledger, in storage order. -/
def boundsOf (L : RaffleLedger) : List Nat := L.participants.map (·.upperBound)

/-- Embeds `BaseRaffle.buyTickets` (lines 121-148), restricted to its effect on the
ledger: require `msg.value >= minTicketPrice`, checked `totalTickets +=
msg.value`, append `TicketRange(msg.sender, totalTickets)`.  The phase and
deadline checks are the caller-owned state machine and out of the ledger
scope. -/
def buyTickets (minTicketPrice : Nat) (L : RaffleLedger) (sender msgValue : Nat) :
    Except RaffleError RaffleLedger :=
  if msgValue < minTicketPrice then
    .error .invalidWeight
  else if U256 ≤ L.totalTickets + msgValue then
    .error .overflow
  else
    .ok { participants := L.participants ++
            [{ owner := sender, upperBound := L.totalTickets + msgValue }],
          totalTickets := L.totalTickets + msgValue }

/-- The binary-search loop of `BaseRaffle._selectWinner` (lines 255-268):
while `left < right`, let `mid = (left + right) / 2`; if
`randomTicket < participants[mid].upperBound` set `right = mid`, else set
`left = mid + 1`; the result is the final value of `left`. -/
def binSearch (bounds : List Nat) (t left right : Nat) : Nat :=
  if h : left < right then
    if t < bounds.getD ((left + right) / 2) 0 then
      binSearch bounds t left ((left + right) / 2)
    else
      binSearch bounds t ((left + right) / 2 + 1) right
  else
    left
termination_by right - left
decreasing_by
  · have h2 : (left + right) / 2 < right := by omega
    omega
  · have h2 : left ≤ (left + right) / 2 := by omega
    omega

/-- Embeds `BaseRaffle._selectWinner` (lines 248-269). -/
def selectWinner (L : RaffleLedger) (entropySeed : Nat) : Except RaffleError Nat :=
  if L.participants.length = 0 then
    .error .noParticipants
  else if L.totalTickets = 0 then
    .error .panicDivisionByZero
  else
    .ok ((L.participants.getD
      (binSearch (boundsOf L) (entropySeed % L.totalTickets) 0
        (L.participants.length - 1)) ⟨0, 0⟩).owner)

/-- Embeds `SingleWinnerRaffle.previewWinner` (lines 86-91): require
`participants.length > 0`, then delegate to `_selectWinner`. -/
def previewWinner (L : RaffleLedger) (entropySeed : Nat) : Except RaffleError Nat :=
  if L.participants.length = 0 then
    .error .noParticipants
  else
    selectWinner L entropySeed

/-- The binary-search loop of the historical `ProjectRaffle._selectWinner`
(part_010, lines 268-279): while `left < right`, if
`cumulativeTickets[mid] <= randomTicket` set `left = mid + 1`, else set
`right = mid`. -/
def binSearchV2 (cumulativeTickets : List Nat) (t left right : Nat) : Nat :=
  if h : left < right then
    if cumulativeTickets.getD ((left + right) / 2) 0 ≤ t then
      binSearchV2 cumulativeTickets t ((left + right) / 2 + 1) right
    else
      binSearchV2 cumulativeTickets t left ((left + right) / 2)
  else
    left
termination_by right - left
decreasing_by
  · have h2 : left ≤ (left + right) / 2 := by omega
    omega
  · have h2 : (left + right) / 2 < right := by omega
    omega

/-- The historical `ProjectRaffle._selectWinner` (part_010, lines 260-282):
requires `cumulativeTickets.length > 0` and `participants.length > 0`, computes
`uint256(entropy) % totalTickets`, searches `cumulativeTickets` and returns
`participants[left]`. -/
def selectWinnerV2 (participants cumulativeTickets : List Nat)
    (totalTickets seed : Nat) : Except RaffleError Nat :=
  if cumulativeTickets.length = 0 then
    .error .noCumulative
  else if participants.length = 0 then
    .error .noParticipants
  else if totalTickets = 0 then
    .error .panicDivisionByZero
  else
    .ok (participants.getD
      (binSearchV2 cumulativeTickets (seed % totalTickets) 0
        (cumulativeTickets.length - 1)) 0)

/-- A ledger assembled directly from parallel lists of owners and cumulative
bounds, used to run the current selection algorithm on the same data the
historical version reads. -/
def mkLedger (owners bounds : List Nat) (total : Nat) : RaffleLedger :=
  ⟨(owners.zip bounds).map (fun p => ⟨p.1, p.2⟩), total⟩

/-- The selection loop instrumented with an iteration budget: `none` means the
budget was exhausted before the loop exited. -/
def binSearchFuel (fuel : Nat) (bounds : List Nat) (t left right : Nat) :
    Option Nat :=
  match fuel with
  | 0 => none
  | fuel + 1 =>
    if left < right then
      if t < bounds.getD ((left + right) / 2) 0 then
        binSearchFuel fuel bounds t left ((left + right) / 2)
      else
        binSearchFuel fuel bounds t ((left + right) / 2 + 1) right
    else
      some left

/-- Runs `_selectWinner` with the loop on an iteration budget of
`participants.length` steps. -/
def selectWinnerFuel (L : RaffleLedger) (entropySeed : Nat) :
    Option (Except RaffleError Nat) :=
  if L.participants.length = 0 then
    some (.error .noParticipants)
  else if L.totalTickets = 0 then
    some (.error .panicDivisionByZero)
  else
    (binSearchFuel L.participants.length (boundsOf L)
        (entropySeed % L.totalTickets) 0 (L.participants.length - 1)).map
      (fun j => .ok ((L.participants.getD j ⟨0, 0⟩).owner))

/-- The selection loop with every array access checked: `none` means an
out-of-bounds read of `participants[mid]` or, at the end, `participants[left]`
would have occurred. -/
def binSearchChecked (bounds : List Nat) (t left right : Nat) : Option Nat :=
  if h : left < right then
    match bounds.get? ((left + right) / 2) with
    | none => none
    | some b =>
      if t < b then
        binSearchChecked bounds t left ((left + right) / 2)
      else
        binSearchChecked bounds t ((left + right) / 2 + 1) right
  else
    if left < bounds.length then some left else none
termination_by right - left
decreasing_by
  · have h2 : (left + right) / 2 < right := by omega
    omega
  · have h2 : left ≤ (left + right) / 2 := by omega
    omega

/-- Runs `_selectWinner` with the modulo and every array access checked: `none`
marks an EVM panic (division by zero or out-of-bounds read). -/
def selectWinnerChecked (L : RaffleLedger) (entropySeed : Nat) :
    Option (Except RaffleError Nat) :=
  if L.participants.length = 0 then
    some (.error .noParticipants)
  else if L.totalTickets = 0 then
    none
  else
    match binSearchChecked (boundsOf L) (entropySeed % L.totalTickets) 0
        (L.participants.length - 1) with
    | none => none
    | some j =>
      match L.participants.get? j with
      | none => none
      | some r => some (.ok r.owner)

/-- Runs `buyTickets` over a whole list of `(sender, msg.value)` contribution
events, stopping at the first revert. -/
def buyAll (minTicketPrice : Nat) (L : RaffleLedger) :
    List (Nat × Nat) → Except RaffleError RaffleLedger
  | [] => .ok L
  | c :: rest =>
    match buyTickets minTicketPrice L c.1 c.2 with
    | .error e => .error e
    | .ok L2 => buyAll minTicketPrice L2 rest

/-- Total weight contributed by owner `o` in a list of contribution events,
aggregated across the owner separate entries. -/
def traceWeight (cs : List (Nat × Nat)) (o : Nat) : Nat :=
  match cs with
  | [] => 0
  | c :: rest => (if c.1 = o then c.2 else 0) + traceWeight rest o

/-- Ledger states reachable from the empty ledger through successful
`buyTickets` calls. -/
inductive Reachable (minTicketPrice : Nat) : RaffleLedger → Prop where
  | empty : Reachable minTicketPrice emptyLedger
  | step {L L2 : RaffleLedger} {sender msgValue : Nat} :
      Reachable minTicketPrice L →
      buyTickets minTicketPrice L sender msgValue = .ok L2 →
      Reachable minTicketPrice L2

/-- The ledger invariant: the `upperBound` sequence ascends strictly from 0
(hence is sorted without duplicates and every bound is positive), and
`totalTickets` equals the last `upperBound`, or 0 when empty. -/
def ledgerInv (L : RaffleLedger) : Prop :=
  List.Chain (· < ·) 0 (boundsOf L) ∧
    L.totalTickets = (boundsOf L).getLast?.getD 0

/-- States that `j` is the index of the range covering target `t`: the least index
whose `upperBound` is strictly greater than `t`. -/
def isTargetIdx (bounds : List Nat) (t j : Nat) : Prop :=
  t < bounds.getD j 0 ∧ ∀ k, k < j → bounds.getD k 0 ≤ t

instance (bounds : List Nat) (t j : Nat) : Decidable (isTargetIdx bounds t j) :=
  inferInstanceAs
    (Decidable (t < bounds.getD j 0 ∧ ∀ k, k < j → bounds.getD k 0 ≤ t))

/-- The proposition that the spec open question asserts: some ledger state
(same cumulative bounds and owners) and seed on which the two historical
versions of the selection algorithm select different owners. -/
def selectionConventionsDiffer : Prop :=
  ∃ (owners bounds : List Nat) (total seed o1 o2 : Nat),
    owners.length = bounds.length ∧
    selectWinner (mkLedger owners bounds total) seed = .ok o1 ∧
    selectWinnerV2 owners bounds total seed = .ok o2 ∧
    o1 ≠ o2

/-! ## Helper lemmas about the binary-search loop -/

lemma binSearch_stop {bounds : List Nat} {t left right : Nat}
    (h : ¬ left < right) : binSearch bounds t left right = left := by
  rw [binSearch, dif_neg h]

lemma binSearch_go_left {bounds : List Nat} {t left right : Nat}
    (h : left < right) (hlt : t < bounds.getD ((left + right) / 2) 0) :
    binSearch bounds t left right = binSearch bounds t left ((left + right) / 2) := by
  rw [binSearch, dif_pos h, if_pos hlt]

lemma binSearch_go_right {bounds : List Nat} {t left right : Nat}
    (h : left < right) (hge : ¬ t < bounds.getD ((left + right) / 2) 0) :
    binSearch bounds t left right =
      binSearch bounds t ((left + right) / 2 + 1) right := by
  rw [binSearch, dif_pos h, if_neg hge]

/-- A bounds list is monotone at default-read positions. -/
def monoBounds (bounds : List Nat) : Prop :=
  ∀ i j, i ≤ j → j < bounds.length → bounds.getD i 0 ≤ bounds.getD j 0

lemma binSearch_spec_aux (bounds : List Nat) (t : Nat) (hmono : monoBounds bounds) :
    ∀ (n left right : Nat), right - left ≤ n → left ≤ right →
      right < bounds.length →
      (∀ k, k < left → bounds.getD k 0 ≤ t) → t < bounds.getD right 0 →
      left ≤ binSearch bounds t left right ∧
        binSearch bounds t left right ≤ right ∧
        isTargetIdx bounds t (binSearch bounds t left right) := by
  intro n
  induction n with
  | zero =>
    intro left right hn hle hlen hlow hhigh
    have heq : left = right := by omega
    rw [binSearch_stop (by omega)]
    subst heq
    exact ⟨Nat.le_refl _, Nat.le_refl _, hhigh, hlow⟩
  | succ n ih =>
    intro left right hn hle hlen hlow hhigh
    by_cases hlr : left < right
    · have hmid1 : left ≤ (left + right) / 2 := by omega
      have hmid2 : (left + right) / 2 < right := by omega
      by_cases hmid : t < bounds.getD ((left + right) / 2) 0
      · rw [binSearch_go_left hlr hmid]
        have h2 := ih left ((left + right) / 2) (by omega) (by omega)
          (by omega) hlow hmid
        exact ⟨h2.1, by omega, h2.2.2⟩
      · rw [binSearch_go_right hlr hmid]
        have hlow2 : ∀ k, k < (left + right) / 2 + 1 → bounds.getD k 0 ≤ t := by
          intro k hk
          have h3 : bounds.getD k 0 ≤ bounds.getD ((left + right) / 2) 0 :=
            hmono k ((left + right) / 2) (by omega) (by omega)
          omega
        have h2 := ih ((left + right) / 2 + 1) right (by omega) (by omega)
          hlen hlow2 hhigh
        exact ⟨by omega, h2.2.1, h2.2.2⟩
    · have heq : left = right := by omega
      rw [binSearch_stop (by omega)]
      subst heq
      exact ⟨Nat.le_refl _, Nat.le_refl _, hhigh, hlow⟩

lemma binSearch_spec (bounds : List Nat) (t left right : Nat)
    (hmono : monoBounds bounds) (hle : left ≤ right) (hlen : right < bounds.length)
    (hlow : ∀ k, k < left → bounds.getD k 0 ≤ t) (hhigh : t < bounds.getD right 0) :
    left ≤ binSearch bounds t left right ∧
      binSearch bounds t left right ≤ right ∧
      isTargetIdx bounds t (binSearch bounds t left right) :=
  binSearch_spec_aux bounds t hmono (right - left) left right (Nat.le_refl _)
    hle hlen hlow hhigh

lemma isTargetIdx_unique {bounds : List Nat} {t j1 j2 : Nat}
    (h1 : isTargetIdx bounds t j1) (h2 : isTargetIdx bounds t j2) : j1 = j2 := by
  rcases Nat.lt_trichotomy j1 j2 with h | h | h
  · have h3 := h2.2 j1 h
    have h4 := h1.1
    omega
  · exact h
  · have h3 := h1.2 j2 h
    have h4 := h2.1
    omega

/-- The loop result stays inside the initial interval, with no sortedness
assumption at all. -/
lemma binSearch_mem_aux (bounds : List Nat) (t : Nat) :
    ∀ (n left right : Nat), right - left ≤ n → left ≤ right →
      left ≤ binSearch bounds t left right ∧ binSearch bounds t left right ≤ right := by
  intro n
  induction n with
  | zero =>
    intro left right hn hle
    rw [binSearch_stop (by omega)]
    omega
  | succ n ih =>
    intro left right hn hle
    by_cases hlr : left < right
    · have hmid1 : left ≤ (left + right) / 2 := by omega
      have hmid2 : (left + right) / 2 < right := by omega
      by_cases hmid : t < bounds.getD ((left + right) / 2) 0
      · rw [binSearch_go_left hlr hmid]
        have h2 := ih left ((left + right) / 2) (by omega) (by omega)
        omega
      · rw [binSearch_go_right hlr hmid]
        have h2 := ih ((left + right) / 2 + 1) right (by omega) (by omega)
        omega
    · rw [binSearch_stop hlr]
      omega

lemma binSearch_mem (bounds : List Nat) (t left right : Nat) (hle : left ≤ right) :
    left ≤ binSearch bounds t left right ∧ binSearch bounds t left right ≤ right :=
  binSearch_mem_aux bounds t (right - left) left right (Nat.le_refl _) hle

/-! ## Helper lemmas about the ledger invariant -/

lemma chain_getD_lt {B : List Nat} (h : List.Chain (· < ·) 0 B) :
    ∀ i j, i < j → j < B.length → B.getD i 0 < B.getD j 0 := by
  intro i j hij hj
  have hp : List.Pairwise (· < ·) B :=
    (List.chain_iff_pairwise.mp h).of_cons
  have h2 := List.pairwise_iff_getElem.mp hp i j (by omega) hj hij
  rw [List.getD_eq_getElem B 0 (by omega), List.getD_eq_getElem B 0 hj]
  exact h2

lemma chain_getD_le {B : List Nat} (h : List.Chain (· < ·) 0 B) :
    monoBounds B := by
  intro i j hij hj
  rcases Nat.eq_or_lt_of_le hij with h2 | h2
  · subst h2
    exact Nat.le_refl _
  · exact Nat.le_of_lt (chain_getD_lt h i j h2 hj)

lemma chain_getD_pos {B : List Nat} (h : List.Chain (· < ·) 0 B) :
    ∀ i, i < B.length → 0 < B.getD i 0 := by
  intro i hi
  have hp : List.Pairwise (· < ·) (0 :: B) := List.chain_iff_pairwise.mp h
  have h2 := List.pairwise_iff_getElem.mp hp 0 (i + 1) (by simp) (by simp; omega)
    (by omega)
  simp only [List.getElem_cons_zero, List.getElem_cons_succ] at h2
  rw [List.getD_eq_getElem B 0 hi]
  exact h2

lemma getLastD_cons {b a : Nat} {rest : List Nat} :
    ((b :: rest).getLast?.getD a) = rest.getLast?.getD b := by
  cases rest with
  | nil => rfl
  | cons c cs => rw [List.getLast?_cons_cons]; rfl

lemma chain_lt_concat {a x : Nat} {l : List Nat} (h : List.Chain (· < ·) a l)
    (hlast : l.getLast?.getD a < x) : List.Chain (· < ·) a (l ++ [x]) := by
  induction l generalizing a with
  | nil => exact List.Chain.cons hlast List.Chain.nil
  | cons b rest ih =>
    cases h with
    | cons hab hrest =>
      rw [getLastD_cons] at hlast
      exact List.Chain.cons hab (ih hrest hlast)

lemma getLastD_eq_getD {B : List Nat} (h : B ≠ []) :
    B.getLast?.getD 0 = B.getD (B.length - 1) 0 := by
  rw [List.getLast?_eq_getLast_of_ne_nil h, Option.getD_some,
    List.getLast_eq_getElem, List.getD_eq_getElem B 0 (by
      have := List.length_pos.mpr h
      omega)]

/-- Successful `buyTickets` calls are exactly characterized by their guards
and append-only effect. -/
lemma buyTickets_ok_iff {minP : Nat} {L : RaffleLedger} {s v : Nat}
    {L2 : RaffleLedger} :
    buyTickets minP L s v = .ok L2 ↔
      minP ≤ v ∧ L.totalTickets + v < U256 ∧
        L2 = ⟨L.participants ++ [⟨s, L.totalTickets + v⟩],
          L.totalTickets + v⟩ := by
  unfold buyTickets
  by_cases h1 : v < minP
  · rw [if_pos h1]
    constructor
    · intro h3
      exact Except.noConfusion h3
    · intro h3
      exact absurd h3.1 (Nat.not_le.mpr h1)
  · by_cases h2 : U256 ≤ L.totalTickets + v
    · rw [if_neg h1, if_pos h2]
      constructor
      · intro h3
        exact Except.noConfusion h3
      · intro h3
        exact absurd h3.2.1 (Nat.not_lt.mpr h2)
    · rw [if_neg h1, if_neg h2]
      constructor
      · intro h3
        injection h3 with h4
        exact ⟨Nat.not_lt.mp h1, Nat.not_le.mp h2, h4.symm⟩
      · intro h3
        rw [h3.2.2]

lemma boundsOf_append {L : RaffleLedger} {s v : Nat} :
    boundsOf ⟨L.participants ++ [⟨s, v⟩], v⟩ = boundsOf L ++ [v] := by
  simp [boundsOf]

lemma ledgerInv_empty : ledgerInv emptyLedger := by
  constructor
  · exact List.Chain.nil
  · rfl

lemma ledgerInv_step {minP : Nat} (hm : 0 < minP) {L L2 : RaffleLedger}
    {s v : Nat} (hinv : ledgerInv L) (h : buyTickets minP L s v = .ok L2) :
    ledgerInv L2 := by
  obtain ⟨hv, hof, hL2⟩ := buyTickets_ok_iff.mp h
  subst hL2
  obtain ⟨hchain, hlast⟩ := hinv
  constructor
  · rw [boundsOf_append]
    exact chain_lt_concat hchain (by rw [← hlast]; omega)
  · rw [boundsOf_append, List.getLast?_concat]
    rfl

lemma reachable_inv {minP : Nat} (hm : 0 < minP) {L : RaffleLedger}
    (h : Reachable minP L) : ledgerInv L := by
  induction h with
  | empty => exact ledgerInv_empty
  | step _ hbuy ih => exact ledgerInv_step hm ih hbuy

lemma boundsOf_length {L : RaffleLedger} :
    (boundsOf L).length = L.participants.length := by
  simp [boundsOf]

/-- In an invariant-satisfying ledger, a positive total means a non-empty
participants array, and the converse characterization of `totalTickets`. -/
lemma inv_pos_nonempty {L : RaffleLedger} (hinv : ledgerInv L)
    (hT : 0 < L.totalTickets) : L.participants ≠ [] := by
  intro h
  have h2 := hinv.2
  have hb : boundsOf L = [] := by simp [boundsOf, h]
  rw [hb] at h2
  simp at h2
  omega

lemma inv_nonempty_pos {L : RaffleLedger} (hinv : ledgerInv L)
    (hne : L.participants ≠ []) : 0 < L.totalTickets := by
  obtain ⟨hchain, hlast⟩ := hinv
  have hB : boundsOf L ≠ [] := by
    simp [boundsOf]
    exact hne
  have hlen : 0 < (boundsOf L).length := List.length_pos.mpr hB
  rw [hlast, getLastD_eq_getD hB]
  exact chain_getD_pos hchain _ (by omega)

/-! ## Characterization of the selection result -/

/-- On any invariant-satisfying ledger with tickets sold, `_selectWinner`
returns the owner of the unique range covering the target. -/
lemma selectWinner_char {L : RaffleLedger} (hinv : ledgerInv L)
    (hT : 0 < L.totalTickets) (seed : Nat) :
    ∃ j, j < L.participants.length ∧
      isTargetIdx (boundsOf L) (seed % L.totalTickets) j ∧
      selectWinner L seed = .ok ((L.participants.getD j ⟨0, 0⟩).owner) := by
  have hne := inv_pos_nonempty hinv hT
  have hlen : 0 < L.participants.length := List.length_pos.mpr hne
  have hBne : boundsOf L ≠ [] := by
    simp [boundsOf]
    exact hne
  have hBlen : (boundsOf L).length = L.participants.length := boundsOf_length
  have htarget : seed % L.totalTickets < L.totalTickets := Nat.mod_lt _ hT
  have hlastB : (boundsOf L).getD (L.participants.length - 1) 0 = L.totalTickets := by
    rw [hinv.2, getLastD_eq_getD hBne, hBlen]
  have hspec := binSearch_spec (boundsOf L) (seed % L.totalTickets) 0
    (L.participants.length - 1) (chain_getD_le hinv.1) (Nat.zero_le _)
    (by omega) (by omega) (by omega)
  refine ⟨binSearch (boundsOf L) (seed % L.totalTickets) 0
    (L.participants.length - 1), by omega, hspec.2.2, ?_⟩
  rw [selectWinner, if_neg (by omega), if_neg (by omega)]

/-- The selection result is determined by any witness of the covering-range
property. -/
lemma selectWinner_eq_of_idx {L : RaffleLedger} (hinv : ledgerInv L)
    (hT : 0 < L.totalTickets) (seed j : Nat)
    (hchar : isTargetIdx (boundsOf L) (seed % L.totalTickets) j) :
    selectWinner L seed = .ok ((L.participants.getD j ⟨0, 0⟩).owner) := by
  obtain ⟨j2, hj2, hchar2, heq⟩ := selectWinner_char hinv hT seed
  rw [isTargetIdx_unique hchar2 hchar] at heq
  exact heq

/-- Appending one contribution does not change the winner at any previously
possible target. -/
lemma selectWinner_snoc_old {minP : Nat} (hm : 0 < minP) {L L2 : RaffleLedger}
    {s v : Nat} (hinv : ledgerInv L)
    (hbuy : buyTickets minP L s v = .ok L2) (t : Nat)
    (ht : t < L.totalTickets) :
    selectWinner L2 t = selectWinner L t := by
  have hinv2 : ledgerInv L2 := ledgerInv_step hm hinv hbuy
  obtain ⟨hv, hof, hL2⟩ := buyTickets_ok_iff.mp hbuy
  have hT : 0 < L.totalTickets := by omega
  have hmod : t % L.totalTickets = t := Nat.mod_eq_of_lt ht
  obtain ⟨j, hj, hchar, heq⟩ := selectWinner_char hinv hT t
  rw [hmod] at hchar
  have hBlen : (boundsOf L).length = L.participants.length := boundsOf_length
  have hT2 : L2.totalTickets = L.totalTickets + v := by rw [hL2]
  have hB2 : boundsOf L2 = boundsOf L ++ [L.totalTickets + v] := by
    rw [hL2]
    exact boundsOf_append
  have hchar2 : isTargetIdx (boundsOf L2) (t % L2.totalTickets) j := by
    rw [hT2, Nat.mod_eq_of_lt (by omega), hB2]
    constructor
    · rw [List.getD_append _ _ _ _ (by omega)]
      exact hchar.1
    · intro k hk
      rw [List.getD_append _ _ _ _ (by omega)]
      exact hchar.2 k hk
  have heq2 := selectWinner_eq_of_idx hinv2 (by omega) t j hchar2
  rw [heq2, heq, hL2]
  rw [List.getD_append _ _ _ _ hj]

/-- Every target in the fresh weight interval of an appended contribution is
won by that contribution sender. -/
lemma selectWinner_snoc_new {minP : Nat} (hm : 0 < minP) {L L2 : RaffleLedger}
    {s v : Nat} (hinv : ledgerInv L)
    (hbuy : buyTickets minP L s v = .ok L2) (t : Nat)
    (ht1 : L.totalTickets ≤ t) (ht2 : t < L.totalTickets + v) :
    selectWinner L2 t = .ok s := by
  have hinv2 : ledgerInv L2 := ledgerInv_step hm hinv hbuy
  obtain ⟨hv, hof, hL2⟩ := buyTickets_ok_iff.mp hbuy
  have hBlen : (boundsOf L).length = L.participants.length := boundsOf_length
  have hT2 : L2.totalTickets = L.totalTickets + v := by rw [hL2]
  have hB2 : boundsOf L2 = boundsOf L ++ [L.totalTickets + v] := by
    rw [hL2]
    exact boundsOf_append
  have hchar2 : isTargetIdx (boundsOf L2) (t % L2.totalTickets)
      L.participants.length := by
    rw [hT2, Nat.mod_eq_of_lt (by omega), hB2]
    constructor
    · rw [List.getD_append_right _ _ _ _ (by omega), hBlen]
      simp
      omega
    · intro k hk
      rw [List.getD_append _ _ _ _ (by omega)]
      have hBne : boundsOf L ≠ [] := by
        intro hnil
        rw [hnil] at hBlen
        simp at hBlen
        omega
      have hle : (boundsOf L).getD k 0 ≤
          (boundsOf L).getD ((boundsOf L).length - 1) 0 :=
        chain_getD_le hinv.1 k ((boundsOf L).length - 1) (by omega) (by omega)
      rw [← getLastD_eq_getD hBne, ← hinv.2] at hle
      omega
  have heq2 := selectWinner_eq_of_idx hinv2 (by omega) t
    L.participants.length hchar2
  rw [heq2, hL2]
  rw [List.getD_append_right _ _ _ _ (by omega)]
  simp

/-! ## Counting winners over all targets -/

deriving instance DecidableEq for Except

/-- Number of values `t` in `[0, totalTickets)` for which the selection,
run with target `t`, returns owner `o`. -/
def winCount (L : RaffleLedger) (o : Nat) : Nat :=
  ((Finset.range L.totalTickets).filter
    (fun t => selectWinner L t = Except.ok o)).card

lemma winCount_snoc {minP : Nat} (hm : 0 < minP) {L L2 : RaffleLedger}
    {s v : Nat} (hinv : ledgerInv L)
    (hbuy : buyTickets minP L s v = .ok L2) (o : Nat) :
    winCount L2 o = winCount L o + (if s = o then v else 0) := by
  obtain ⟨hv, hof, hL2⟩ := buyTickets_ok_iff.mp hbuy
  have hT2 : L2.totalTickets = L.totalTickets + v := by rw [hL2]
  unfold winCount
  rw [hT2, Finset.range_eq_Ico,
    ← Finset.Ico_union_Ico_eq_Ico (Nat.zero_le L.totalTickets)
      (Nat.le_add_right _ _),
    Finset.filter_union,
    Finset.card_union_of_disjoint (Finset.disjoint_filter_filter
      (Finset.Ico_disjoint_Ico_consecutive 0 L.totalTickets
        (L.totalTickets + v)))]
  congr 1
  · rw [← Finset.range_eq_Ico]
    apply congrArg
    apply Finset.filter_congr
    intro t htmem
    rw [Finset.mem_range] at htmem
    rw [selectWinner_snoc_old hm hinv hbuy t htmem]
  · by_cases hso : s = o
    · subst hso
      rw [if_pos rfl, Finset.filter_true_of_mem, Nat.card_Ico]
      · omega
      · intro t htmem
        rw [Finset.mem_Ico] at htmem
        rw [selectWinner_snoc_new hm hinv hbuy t htmem.1 htmem.2]
    · rw [if_neg hso, Finset.filter_false_of_mem, Finset.card_empty]
      intro t htmem
      rw [Finset.mem_Ico] at htmem
      rw [selectWinner_snoc_new hm hinv hbuy t htmem.1 htmem.2]
      intro hcontra
      injection hcontra with h4
      exact hso h4

lemma buyAll_concat {minP : Nat} {L : RaffleLedger} {cs : List (Nat × Nat)}
    {c : Nat × Nat} :
    buyAll minP L (cs ++ [c]) =
      match buyAll minP L cs with
      | .error e => .error e
      | .ok L2 => buyTickets minP L2 c.1 c.2 := by
  induction cs generalizing L with
  | nil =>
    show buyAll minP L [c] = _
    simp only [buyAll]
    cases buyTickets minP L c.1 c.2 <;> rfl
  | cons d rest ih =>
    show buyAll minP L (d :: (rest ++ [c])) = _
    simp only [buyAll]
    cases buyTickets minP L d.1 d.2 with
    | error e => rfl
    | ok L3 => exact ih

lemma traceWeight_concat {cs : List (Nat × Nat)} {c : Nat × Nat} {o : Nat} :
    traceWeight (cs ++ [c]) o =
      traceWeight cs o + (if c.1 = o then c.2 else 0) := by
  induction cs with
  | nil => simp [traceWeight]
  | cons d rest ih =>
    show traceWeight (d :: (rest ++ [c])) o = _
    rw [traceWeight, traceWeight, ih]
    omega

lemma buyAll_ok_inv {minP : Nat} (hm : 0 < minP) {cs : List (Nat × Nat)} :
    ∀ {L L2 : RaffleLedger}, ledgerInv L → buyAll minP L cs = .ok L2 →
      ledgerInv L2 := by
  induction cs with
  | nil =>
    intro L L2 hinv h
    rw [buyAll] at h
    injection h with h2
    rw [← h2]
    exact hinv
  | cons c rest ih =>
    intro L L2 hinv h
    rw [buyAll] at h
    cases hb : buyTickets minP L c.1 c.2 with
    | error e => rw [hb] at h; exact Except.noConfusion h
    | ok L3 =>
      rw [hb] at h
      exact ih (ledgerInv_step hm hinv hb) h

lemma buyAll_reachable {minP : Nat} {cs : List (Nat × Nat)} :
    ∀ {L L2 : RaffleLedger}, Reachable minP L → buyAll minP L cs = .ok L2 →
      Reachable minP L2 := by
  induction cs with
  | nil =>
    intro L L2 hr h
    rw [buyAll] at h
    injection h with h2
    rw [← h2]
    exact hr
  | cons c rest ih =>
    intro L L2 hr h
    rw [buyAll] at h
    cases hb : buyTickets minP L c.1 c.2 with
    | error e => rw [hb] at h; exact Except.noConfusion h
    | ok L3 =>
      rw [hb] at h
      exact ih (Reachable.step hr hb) h

lemma winCount_trace {minP : Nat} (hm : 0 < minP) :
    ∀ (cs : List (Nat × Nat)) {L : RaffleLedger},
      buyAll minP emptyLedger cs = .ok L → ∀ o, winCount L o = traceWeight cs o := by
  intro cs
  induction cs using List.reverseRecOn with
  | nil =>
    intro L h o
    rw [buyAll] at h
    injection h with h2
    rw [← h2]
    simp [winCount, emptyLedger, traceWeight]
  | append_singleton rest c ih =>
    intro L h o
    rw [buyAll_concat] at h
    cases hb : buyAll minP emptyLedger rest with
    | error e => rw [hb] at h; exact Except.noConfusion h
    | ok L0 =>
      rw [hb] at h
      have hinv0 : ledgerInv L0 := buyAll_ok_inv hm ledgerInv_empty hb
      rw [winCount_snoc hm hinv0 h o, ih hb o, traceWeight_concat]

/-! ## Equivalence of the two historical loop versions -/

lemma binSearchV2_stop {bounds : List Nat} {t left right : Nat}
    (h : ¬ left < right) : binSearchV2 bounds t left right = left := by
  rw [binSearchV2, dif_neg h]

lemma binSearchV2_go_right {bounds : List Nat} {t left right : Nat}
    (h : left < right) (hle : bounds.getD ((left + right) / 2) 0 ≤ t) :
    binSearchV2 bounds t left right =
      binSearchV2 bounds t ((left + right) / 2 + 1) right := by
  rw [binSearchV2, dif_pos h, if_pos hle]

lemma binSearchV2_go_left {bounds : List Nat} {t left right : Nat}
    (h : left < right) (hgt : ¬ bounds.getD ((left + right) / 2) 0 ≤ t) :
    binSearchV2 bounds t left right =
      binSearchV2 bounds t left ((left + right) / 2) := by
  rw [binSearchV2, dif_pos h, if_neg hgt]

/-- The two loop bodies are negation-mirrored images of each other, so the
loops compute the same index on every input. -/
lemma binSearchV2_eq_binSearch (bounds : List Nat) (t : Nat) :
    ∀ (n left right : Nat), right - left ≤ n →
      binSearchV2 bounds t left right = binSearch bounds t left right := by
  intro n
  induction n with
  | zero =>
    intro left right hn
    by_cases hlr : left < right
    · omega
    · rw [binSearchV2_stop hlr, binSearch_stop hlr]
  | succ n ih =>
    intro left right hn
    by_cases hlr : left < right
    · have hmid1 : left ≤ (left + right) / 2 := by omega
      have hmid2 : (left + right) / 2 < right := by omega
      by_cases hmid : t < bounds.getD ((left + right) / 2) 0
      · rw [binSearchV2_go_left hlr (by omega), binSearch_go_left hlr hmid]
        exact ih left ((left + right) / 2) (by omega)
      · rw [binSearchV2_go_right hlr (by omega), binSearch_go_right hlr hmid]
        exact ih ((left + right) / 2 + 1) right (by omega)
    · rw [binSearchV2_stop hlr, binSearch_stop hlr]

lemma mkLedger_length (total : Nat) :
    ∀ (owners bounds : List Nat), owners.length = bounds.length →
      (mkLedger owners bounds total).participants.length = owners.length := by
  intro owners bounds h
  simp [mkLedger]
  omega

lemma mkLedger_boundsOf (total : Nat) :
    ∀ (owners bounds : List Nat), owners.length = bounds.length →
      boundsOf (mkLedger owners bounds total) = bounds := by
  intro owners
  induction owners with
  | nil =>
    intro bounds h
    cases bounds with
    | nil => rfl
    | cons b bs => simp at h
  | cons a as ih =>
    intro bounds h
    cases bounds with
    | nil => simp at h
    | cons b bs =>
      have h2 := ih bs (by simpa using h)
      simp only [mkLedger, boundsOf, List.zip_cons_cons, List.map_cons] at h2 ⊢
      rw [h2]

lemma mkLedger_getD (total : Nat) :
    ∀ (owners bounds : List Nat) (j : Nat), owners.length = bounds.length →
      j < owners.length →
      ((mkLedger owners bounds total).participants.getD j ⟨0, 0⟩).owner =
        owners.getD j 0 := by
  intro owners
  induction owners with
  | nil =>
    intro bounds j h hj
    simp at hj
  | cons a as ih =>
    intro bounds j h hj
    cases bounds with
    | nil => simp at h
    | cons b bs =>
      cases j with
      | zero => rfl
      | succ j =>
        have h2 := ih bs j (by simpa using h) (by simpa using hj)
        simp only [mkLedger, List.zip_cons_cons, List.map_cons,
          List.getD_cons_succ] at h2 ⊢
        exact h2

/-- On a non-empty ledger presented to both versions as the same owner and
cumulative-bound arrays, the current and the historical `_selectWinner`
agree exactly. -/
lemma selectWinner_eq_v2 (owners bounds : List Nat) (total seed : Nat)
    (hlen : owners.length = bounds.length) (hne : owners ≠ []) :
    selectWinner (mkLedger owners bounds total) seed =
      selectWinnerV2 owners bounds total seed := by
  have hlen0 : 0 < owners.length := List.length_pos.mpr hne
  have hplen : (mkLedger owners bounds total).participants.length =
      owners.length := mkLedger_length total owners bounds hlen
  have hbounds : boundsOf (mkLedger owners bounds total) = bounds :=
    mkLedger_boundsOf total owners bounds hlen
  have htot : (mkLedger owners bounds total).totalTickets = total := rfl
  have h1 : ¬((mkLedger owners bounds total).participants.length = 0) := by omega
  have h2 : ¬(bounds.length = 0) := by omega
  have h3 : ¬(owners.length = 0) := by omega
  rw [selectWinner, selectWinnerV2, if_neg h1, if_neg h2, if_neg h3, htot]
  by_cases hT : total = 0
  · rw [if_pos hT, if_pos hT]
  · rw [if_neg hT, if_neg hT, hbounds, hplen]
    have hj := binSearch_mem bounds (seed % total) 0 (owners.length - 1)
      (Nat.zero_le _)
    rw [binSearchV2_eq_binSearch bounds (seed % total)
      (bounds.length - 1 - 0) 0 (bounds.length - 1) (Nat.le_refl _)]
    rw [show bounds.length = owners.length from hlen.symm]
    rw [mkLedger_getD total owners bounds _ hlen (by omega)]

/-! ## Termination and memory-safety instrumentation lemmas -/

lemma binSearchFuel_eq (bounds : List Nat) (t : Nat) :
    ∀ (fuel left right : Nat), right - left < fuel →
      binSearchFuel fuel bounds t left right =
        some (binSearch bounds t left right) := by
  intro fuel
  induction fuel with
  | zero =>
    intro left right hfuel
    omega
  | succ fuel ih =>
    intro left right hfuel
    rw [binSearchFuel]
    by_cases hlr : left < right
    · have hmid1 : left ≤ (left + right) / 2 := by omega
      have hmid2 : (left + right) / 2 < right := by omega
      rw [if_pos hlr]
      by_cases hmid : t < bounds.getD ((left + right) / 2) 0
      · rw [if_pos hmid, binSearch_go_left hlr hmid]
        exact ih left ((left + right) / 2) (by omega)
      · rw [if_neg hmid, binSearch_go_right hlr hmid]
        exact ih ((left + right) / 2 + 1) right (by omega)
    · rw [if_neg hlr, binSearch_stop hlr]

lemma binSearchChecked_stop {bounds : List Nat} {t left right : Nat}
    (h : ¬ left < right) :
    binSearchChecked bounds t left right =
      if left < bounds.length then some left else none := by
  rw [binSearchChecked, dif_neg h]

lemma binSearchChecked_go {bounds : List Nat} {t left right : Nat}
    (h : left < right) (hmid : (left + right) / 2 < bounds.length) :
    binSearchChecked bounds t left right =
      if t < bounds.getD ((left + right) / 2) 0 then
        binSearchChecked bounds t left ((left + right) / 2)
      else
        binSearchChecked bounds t ((left + right) / 2 + 1) right := by
  rw [binSearchChecked, dif_pos h]
  have hg : bounds.get? ((left + right) / 2) =
      some (bounds.getD ((left + right) / 2) 0) := by
    rw [List.getD_eq_getElem _ _ hmid, List.get?_eq_getElem?]
    exact List.getElem?_eq_getElem hmid
  rw [hg]

/-- Whenever the loop starts on an interval inside the array, every access it
performs is in bounds. -/
lemma binSearchChecked_eq (bounds : List Nat) (t : Nat) :
    ∀ (n left right : Nat), right - left ≤ n → left ≤ right →
      right < bounds.length →
      binSearchChecked bounds t left right =
        some (binSearch bounds t left right) := by
  intro n
  induction n with
  | zero =>
    intro left right hn hle hlen
    rw [binSearchChecked_stop (by omega), binSearch_stop (by omega),
      if_pos (by omega)]
  | succ n ih =>
    intro left right hn hle hlen
    by_cases hlr : left < right
    · have hmid1 : left ≤ (left + right) / 2 := by omega
      have hmid2 : (left + right) / 2 < right := by omega
      rw [binSearchChecked_go hlr (by omega)]
      by_cases hmid : t < bounds.getD ((left + right) / 2) 0
      · rw [if_pos hmid, binSearch_go_left hlr hmid]
        exact ih left ((left + right) / 2) (by omega) (by omega) (by omega)
      · rw [if_neg hmid, binSearch_go_right hlr hmid]
        exact ih ((left + right) / 2 + 1) right (by omega) (by omega) hlen
    · rw [binSearchChecked_stop hlr, binSearch_stop hlr, if_pos (by omega)]

/-- On any invariant-satisfying non-empty ledger, the checked selection
performs no out-of-bounds access and no division by zero: it computes exactly
what the unchecked embedding computes. -/
lemma selectWinnerChecked_eq {L : RaffleLedger} (hinv : ledgerInv L)
    (hne : L.participants ≠ []) (seed : Nat) :
    selectWinnerChecked L seed = some (selectWinner L seed) := by
  have hT : 0 < L.totalTickets := inv_nonempty_pos hinv hne
  have hlen : 0 < L.participants.length := List.length_pos.mpr hne
  have hBlen : (boundsOf L).length = L.participants.length := boundsOf_length
  have hj := binSearch_mem (boundsOf L) (seed % L.totalTickets) 0
    (L.participants.length - 1) (Nat.zero_le _)
  rw [selectWinnerChecked, selectWinner, if_neg (by omega), if_neg (by omega),
    if_neg (by omega), if_neg (by omega),
    binSearchChecked_eq (boundsOf L) (seed % L.totalTickets)
      (L.participants.length - 1) 0 (L.participants.length - 1)
      (by omega) (by omega) (by omega)]
  have hg : L.participants.get?
      (binSearch (boundsOf L) (seed % L.totalTickets) 0
        (L.participants.length - 1)) =
      some (L.participants.getD
        (binSearch (boundsOf L) (seed % L.totalTickets) 0
          (L.participants.length - 1)) ⟨0, 0⟩) := by
    rw [List.getD_eq_getElem _ _ (by omega), List.get?_eq_getElem?]
    exact List.getElem?_eq_getElem (by omega)
  simp only [hg]

/-! ## Claim theorems -/

/-- Claim C1: weighted fairness, exact form.  For every ledger built by a
sequence of successful `buyTickets` calls from the empty ledger, with total
weight `T > 0`, and every owner `o`: the number of target values
`t = randomSeed mod T` in `[0, T)` for which `_selectWinner` returns `o`
equals the total weight `o` contributed, aggregated across the owner
separate entries; moreover every seed selects exactly as its reduced target
does, so under a uniform seed owner `o` wins with probability exactly
`traceWeight cs o / T`. -/
theorem weighted_fairness (minP : Nat) (cs : List (Nat × Nat))
    (L : RaffleLedger) (hm : 0 < minP)
    (h : buyAll minP emptyLedger cs = .ok L) (hT : 0 < L.totalTickets)
    (o : Nat) :
    winCount L o = traceWeight cs o ∧
      ∀ seed, selectWinner L seed = selectWinner L (seed % L.totalTickets) := by
  constructor
  · exact winCount_trace hm cs h o
  · intro seed
    rw [selectWinner, selectWinner, Nat.mod_mod_of_dvd seed (dvd_refl _)]

/-- Witness for C1: the two-contribution trace owner 1 pays 1, owner 2
pays 2; owner 1 wins exactly 1 of the 3 targets. -/
theorem weighted_fairness_witness :
    winCount ⟨[⟨1, 1⟩, ⟨2, 3⟩], 3⟩ 1 = traceWeight [(1, 1), (2, 2)] 1 ∧
      ∀ seed, selectWinner ⟨[⟨1, 1⟩, ⟨2, 3⟩], 3⟩ seed =
        selectWinner ⟨[⟨1, 1⟩, ⟨2, 3⟩], 3⟩
          (seed % (⟨[⟨1, 1⟩, ⟨2, 3⟩], 3⟩ : RaffleLedger).totalTickets) :=
  weighted_fairness 1 [(1, 1), (2, 2)] ⟨[⟨1, 1⟩, ⟨2, 3⟩], 3⟩ (by decide)
    (by decide) (by decide) 1

/-- Claim C2 is false: the two historical versions of the loop are
negation-mirrored images of one another and always select the same owner;
no ledger state and seed distinguishes them.  This refutes the claimed
boundary-convention divergence. -/
theorem selection_conventions_agree : ¬ selectionConventionsDiffer := by
  rintro ⟨owners, bounds, total, seed, o1, o2, hlen, h1, h2, hne⟩
  have howners : owners ≠ [] := by
    intro h
    subst h
    have hb : bounds = [] := by
      cases bounds with
      | nil => rfl
      | cons b bs => simp at hlen
    subst hb
    rw [show mkLedger [] [] total = (⟨[], total⟩ : RaffleLedger) from rfl] at h1
    have hz : (⟨[], total⟩ : RaffleLedger).participants.length = 0 := rfl
    rw [selectWinner, if_pos hz] at h1
    exact Except.noConfusion h1
  rw [selectWinner_eq_v2 owners bounds total seed hlen howners, h2] at h1
  injection h1 with h3
  exact hne h3.symm

/-- Claim C2, amended: on the same owners, cumulative bounds, total and seed,
the two historical versions of `_selectWinner` return identical results
whenever the ledger is non-empty — the loop conditions
`randomTicket < upperBound[mid]` with `right = mid` and
`cumulativeTickets[mid] <= randomTicket` with `left = mid + 1` are logically
the same tie-break, so boundary values are resolved identically. -/
theorem selection_conventions_equivalent (owners bounds : List Nat)
    (total seed : Nat) (hlen : owners.length = bounds.length)
    (hne : owners ≠ []) :
    selectWinner (mkLedger owners bounds total) seed =
      selectWinnerV2 owners bounds total seed :=
  selectWinner_eq_v2 owners bounds total seed hlen hne

/-- Witness for the amended C2, at a boundary seed: target 10 sits exactly on
the first upper bound. -/
theorem selection_conventions_equivalent_witness :
    selectWinner (mkLedger [1, 2] [10, 30] 30) 10 =
      selectWinnerV2 [1, 2] [10, 30] 30 10 :=
  selection_conventions_equivalent [1, 2] [10, 30] 30 10 (by decide) (by decide)

/-- Claim C3: ledger invariant.  In every ledger reachable from the empty
ledger by successful `buyTickets` calls, the `upperBound` sequence is strictly
increasing (sorted without duplicates), `totalTickets` equals the last
`upperBound` (0 when empty), and every further successful call only appends
one new entry, mutating or removing none. -/
theorem ledger_invariant (minP : Nat) (L : RaffleLedger) (hm : 0 < minP)
    (hR : Reachable minP L) :
    (∀ i, i + 1 < L.participants.length →
        (boundsOf L).getD i 0 < (boundsOf L).getD (i + 1) 0) ∧
      L.totalTickets = (boundsOf L).getLast?.getD 0 ∧
      ∀ s v L2, buyTickets minP L s v = .ok L2 →
        L2.participants = L.participants ++ [⟨s, L.totalTickets + v⟩] := by
  have hinv := reachable_inv hm hR
  refine ⟨?_, hinv.2, ?_⟩
  · intro i hi
    refine chain_getD_lt hinv.1 i (i + 1) (by omega) ?_
    rw [boundsOf_length]
    omega
  · intro s v L2 hb
    obtain ⟨_, _, hL2⟩ := buyTickets_ok_iff.mp hb
    rw [hL2]

/-- Witness for C3 at a concrete two-step reachable ledger. -/
theorem ledger_invariant_witness :
    (∀ i, i + 1 < (⟨[⟨7, 5⟩, ⟨9, 11⟩], 11⟩ : RaffleLedger).participants.length →
        (boundsOf ⟨[⟨7, 5⟩, ⟨9, 11⟩], 11⟩).getD i 0 <
          (boundsOf ⟨[⟨7, 5⟩, ⟨9, 11⟩], 11⟩).getD (i + 1) 0) ∧
      (⟨[⟨7, 5⟩, ⟨9, 11⟩], 11⟩ : RaffleLedger).totalTickets =
        (boundsOf ⟨[⟨7, 5⟩, ⟨9, 11⟩], 11⟩).getLast?.getD 0 ∧
      ∀ s v L2, buyTickets 1 ⟨[⟨7, 5⟩, ⟨9, 11⟩], 11⟩ s v = .ok L2 →
        L2.participants = (⟨[⟨7, 5⟩, ⟨9, 11⟩], 11⟩ : RaffleLedger).participants ++
          [⟨s, (⟨[⟨7, 5⟩, ⟨9, 11⟩], 11⟩ : RaffleLedger).totalTickets + v⟩] := by
  refine ledger_invariant 1 ⟨[⟨7, 5⟩, ⟨9, 11⟩], 11⟩ (by decide) ?_
  exact Reachable.step
    (Reachable.step Reachable.empty
      (show buyTickets 1 emptyLedger 7 5 = .ok ⟨[⟨7, 5⟩], 5⟩ by decide))
    (show buyTickets 1 ⟨[⟨7, 5⟩], 5⟩ 9 6 = .ok ⟨[⟨7, 5⟩, ⟨9, 11⟩], 11⟩ by decide)

/-- Claim C4: boundary correctness.  Under the ledger invariant with
`T > 0`, a seed whose target is 0 selects the first range owner, a seed
whose target is `T - 1` selects the last range owner, and with exactly one
participant every seed selects that participant. -/
theorem boundary_correctness (L : RaffleLedger)
    (hchain : List.Chain (· < ·) 0 (boundsOf L))
    (hlast : L.totalTickets = (boundsOf L).getLast?.getD 0)
    (hT : 0 < L.totalTickets) (seed : Nat) :
    (seed % L.totalTickets = 0 →
        selectWinner L seed = .ok ((L.participants.getD 0 ⟨0, 0⟩).owner)) ∧
      (seed % L.totalTickets = L.totalTickets - 1 →
        selectWinner L seed =
          .ok ((L.participants.getD (L.participants.length - 1) ⟨0, 0⟩).owner)) ∧
      (L.participants.length = 1 →
        selectWinner L seed = .ok ((L.participants.getD 0 ⟨0, 0⟩).owner)) := by
  have hinv : ledgerInv L := ⟨hchain, hlast⟩
  have hne := inv_pos_nonempty hinv hT
  have hlen : 0 < L.participants.length := List.length_pos.mpr hne
  have hBne : boundsOf L ≠ [] := by
    simp [boundsOf]
    exact hne
  have hBlen : (boundsOf L).length = L.participants.length := boundsOf_length
  have hlastB : (boundsOf L).getD (L.participants.length - 1) 0 =
      L.totalTickets := by
    rw [hlast, getLastD_eq_getD hBne, hBlen]
  refine ⟨?_, ?_, ?_⟩
  · intro h0
    refine selectWinner_eq_of_idx hinv hT seed 0 ⟨?_, ?_⟩
    · rw [h0]
      exact chain_getD_pos hchain 0 (by omega)
    · intro k hk
      omega
  · intro h1
    refine selectWinner_eq_of_idx hinv hT seed (L.participants.length - 1)
      ⟨?_, ?_⟩
    · rw [h1, hlastB]
      omega
    · intro k hk
      have h2 : (boundsOf L).getD k 0 <
          (boundsOf L).getD (L.participants.length - 1) 0 :=
        chain_getD_lt hchain k (L.participants.length - 1) (by omega) (by omega)
      rw [hlastB] at h2
      omega
  · intro hone
    refine selectWinner_eq_of_idx hinv hT seed 0 ⟨?_, ?_⟩
    · have h2 : (boundsOf L).getD 0 0 = L.totalTickets := by
        rw [← hlastB, hone]
      rw [h2]
      exact Nat.mod_lt _ hT
    · intro k hk
      omega

/-- Witness for C4 on the three-range ledger with bounds 10, 30, 100, at
seed 0. -/
theorem boundary_correctness_witness :
    (0 % (⟨[⟨1, 10⟩, ⟨2, 30⟩, ⟨3, 100⟩], 100⟩ : RaffleLedger).totalTickets = 0 →
        selectWinner ⟨[⟨1, 10⟩, ⟨2, 30⟩, ⟨3, 100⟩], 100⟩ 0 =
          .ok (((⟨[⟨1, 10⟩, ⟨2, 30⟩, ⟨3, 100⟩], 100⟩ :
            RaffleLedger).participants.getD 0 ⟨0, 0⟩).owner)) ∧
      (0 % (⟨[⟨1, 10⟩, ⟨2, 30⟩, ⟨3, 100⟩], 100⟩ : RaffleLedger).totalTickets =
          (⟨[⟨1, 10⟩, ⟨2, 30⟩, ⟨3, 100⟩], 100⟩ : RaffleLedger).totalTickets - 1 →
        selectWinner ⟨[⟨1, 10⟩, ⟨2, 30⟩, ⟨3, 100⟩], 100⟩ 0 =
          .ok (((⟨[⟨1, 10⟩, ⟨2, 30⟩, ⟨3, 100⟩], 100⟩ :
            RaffleLedger).participants.getD
              ((⟨[⟨1, 10⟩, ⟨2, 30⟩, ⟨3, 100⟩], 100⟩ :
                RaffleLedger).participants.length - 1) ⟨0, 0⟩).owner)) ∧
      ((⟨[⟨1, 10⟩, ⟨2, 30⟩, ⟨3, 100⟩], 100⟩ :
          RaffleLedger).participants.length = 1 →
        selectWinner ⟨[⟨1, 10⟩, ⟨2, 30⟩, ⟨3, 100⟩], 100⟩ 0 =
          .ok (((⟨[⟨1, 10⟩, ⟨2, 30⟩, ⟨3, 100⟩], 100⟩ :
            RaffleLedger).participants.getD 0 ⟨0, 0⟩).owner)) :=
  boundary_correctness ⟨[⟨1, 10⟩, ⟨2, 30⟩, ⟨3, 100⟩], 100⟩
    (by simp [boundsOf, List.chain_cons]) (by decide) (by decide) 0

/-- Claim C5: concrete scenario.  Recording A(10), B(20), C(70) in that order
produces bounds 10, 30, 100 with `T = 100` (owners A, B, C encoded as 1, 2,
3); targets 5, 15, 50, 99, 10 select A, B, C, C, B respectively — in
particular the value exactly at the upper bound of A belongs to the range of B. -/
theorem concrete_scenario :
    buyAll 1 emptyLedger [(1, 10), (2, 20), (3, 70)] =
        .ok ⟨[⟨1, 10⟩, ⟨2, 30⟩, ⟨3, 100⟩], 100⟩ ∧
      selectWinner ⟨[⟨1, 10⟩, ⟨2, 30⟩, ⟨3, 100⟩], 100⟩ 5 = .ok 1 ∧
      selectWinner ⟨[⟨1, 10⟩, ⟨2, 30⟩, ⟨3, 100⟩], 100⟩ 15 = .ok 2 ∧
      selectWinner ⟨[⟨1, 10⟩, ⟨2, 30⟩, ⟨3, 100⟩], 100⟩ 50 = .ok 3 ∧
      selectWinner ⟨[⟨1, 10⟩, ⟨2, 30⟩, ⟨3, 100⟩], 100⟩ 99 = .ok 3 ∧
      selectWinner ⟨[⟨1, 10⟩, ⟨2, 30⟩, ⟨3, 100⟩], 100⟩ 10 = .ok 2 := by
  have hinv : ledgerInv ⟨[⟨1, 10⟩, ⟨2, 30⟩, ⟨3, 100⟩], 100⟩ :=
    ⟨by simp [boundsOf, List.chain_cons], by decide⟩
  refine ⟨by decide, ?_, ?_, ?_, ?_, ?_⟩
  · exact selectWinner_eq_of_idx hinv (by decide) 5 0 (by decide)
  · exact selectWinner_eq_of_idx hinv (by decide) 15 1 (by decide)
  · exact selectWinner_eq_of_idx hinv (by decide) 50 2 (by decide)
  · exact selectWinner_eq_of_idx hinv (by decide) 99 2 (by decide)
  · exact selectWinner_eq_of_idx hinv (by decide) 10 1 (by decide)

/-- Claim C6: empty-ledger guard.  On an empty ledger both `_selectWinner`
and `previewWinner` fail with `NoParticipants`; and either function returns
an owner exactly when the ledger is non-empty and `totalTickets > 0`. -/
theorem empty_ledger_guard (L : RaffleLedger) (seed : Nat) :
    (L.participants = [] →
        selectWinner L seed = .error .noParticipants ∧
          previewWinner L seed = .error .noParticipants) ∧
      ((∃ o, selectWinner L seed = .ok o) ↔
        L.participants ≠ [] ∧ 0 < L.totalTickets) ∧
      ((∃ o, previewWinner L seed = .ok o) ↔
        L.participants ≠ [] ∧ 0 < L.totalTickets) := by
  have hsel : ∀ o : Nat, selectWinner L seed = .ok o →
      L.participants ≠ [] ∧ 0 < L.totalTickets := by
    intro o ho
    rw [selectWinner] at ho
    by_cases h1 : L.participants.length = 0
    · rw [if_pos h1] at ho
      exact Except.noConfusion ho
    · rw [if_neg h1] at ho
      by_cases h2 : L.totalTickets = 0
      · rw [if_pos h2] at ho
        exact Except.noConfusion ho
      · refine ⟨?_, by omega⟩
        intro hnil
        apply h1
        rw [hnil]
        rfl
  have hok : L.participants ≠ [] ∧ 0 < L.totalTickets →
      ∃ o, selectWinner L seed = .ok o := by
    rintro ⟨hne, hT⟩
    have h1 : ¬ L.participants.length = 0 := by
      intro h
      exact hne (List.length_eq_zero.mp h)
    refine ⟨(L.participants.getD
      (binSearch (boundsOf L) (seed % L.totalTickets) 0
        (L.participants.length - 1)) ⟨0, 0⟩).owner, ?_⟩
    rw [selectWinner, if_neg h1, if_neg (by omega)]
  refine ⟨?_, ?_, ?_⟩
  · intro h
    have hlen : L.participants.length = 0 := by rw [h]; rfl
    constructor
    · rw [selectWinner, if_pos hlen]
    · rw [previewWinner, if_pos hlen]
  · constructor
    · rintro ⟨o, ho⟩
      exact hsel o ho
    · exact hok
  · constructor
    · rintro ⟨o, ho⟩
      rw [previewWinner] at ho
      by_cases h1 : L.participants.length = 0
      · rw [if_pos h1] at ho
        exact Except.noConfusion ho
      · rw [if_neg h1] at ho
        exact hsel o ho
    · intro h
      obtain ⟨o, ho⟩ := hok h
      refine ⟨o, ?_⟩
      rw [previewWinner, if_neg ?_]
      · exact ho
      · intro hz
        exact h.1 (List.length_eq_zero.mp hz)

/-- Witness for C6 at the empty ledger and seed 0. -/
theorem empty_ledger_guard_witness :
    (emptyLedger.participants = [] →
        selectWinner emptyLedger 0 = .error .noParticipants ∧
          previewWinner emptyLedger 0 = .error .noParticipants) ∧
      ((∃ o, selectWinner emptyLedger 0 = .ok o) ↔
        emptyLedger.participants ≠ [] ∧ 0 < emptyLedger.totalTickets) ∧
      ((∃ o, previewWinner emptyLedger 0 = .ok o) ↔
        emptyLedger.participants ≠ [] ∧ 0 < emptyLedger.totalTickets) :=
  empty_ledger_guard emptyLedger 0

/-- Claim C7: rejection of zero weight with atomicity.  With the positive
minimum ticket price the constructor enforces, a zero-value purchase reverts
with the minimum-price error (the spec `InvalidWeight`) on every ledger
state, and no call with zero value can ever return an updated ledger, so no
zero-width range is appended and `ranges`/`totalWeight` are unchanged. -/
theorem zero_weight_rejected (minP : Nat) (hm : 0 < minP) (L : RaffleLedger)
    (s : Nat) :
    buyTickets minP L s 0 = .error .invalidWeight ∧
      ∀ L2, buyTickets minP L s 0 ≠ .ok L2 := by
  have h : buyTickets minP L s 0 = .error .invalidWeight := by
    rw [buyTickets, if_pos (by omega)]
  refine ⟨h, ?_⟩
  intro L2 hc
  rw [h] at hc
  exact Except.noConfusion hc

/-- Witness for C7 on the empty ledger. -/
theorem zero_weight_rejected_witness :
    buyTickets 1 emptyLedger 3 0 = .error .invalidWeight ∧
      ∀ L2, buyTickets 1 emptyLedger 3 0 ≠ .ok L2 :=
  zero_weight_rejected 1 (by decide) emptyLedger 3

/-- Claim C8: overflow is fatal and atomic.  When `totalTickets + msg.value`
would reach `2 ^ 256`, the checked addition reverts: no ledger is ever
returned (so `ranges` and `totalWeight` stay exactly as they were, never a
half-written range), and when the amount passes the minimum-price check the
revert is the overflow panic rather than a wrapped result. -/
theorem overflow_rejected (minP : Nat) (L : RaffleLedger) (s v : Nat)
    (hof : U256 ≤ L.totalTickets + v) :
    (∀ L2, buyTickets minP L s v ≠ .ok L2) ∧
      (minP ≤ v → buyTickets minP L s v = .error .overflow) := by
  constructor
  · intro L2 hc
    obtain ⟨_, h2, _⟩ := buyTickets_ok_iff.mp hc
    omega
  · intro hv
    rw [buyTickets, if_neg (by omega), if_pos hof]

/-- Witness for C8: a ledger one wei below the 256-bit limit rejects a
one-wei purchase with the overflow panic. -/
theorem overflow_rejected_witness :
    (∀ L2, buyTickets 1 ⟨[⟨1, U256 - 1⟩], U256 - 1⟩ 2 1 ≠ .ok L2) ∧
      (1 ≤ 1 → buyTickets 1 ⟨[⟨1, U256 - 1⟩], U256 - 1⟩ 2 1 =
        .error .overflow) :=
  overflow_rejected 1 ⟨[⟨1, U256 - 1⟩], U256 - 1⟩ 2 1 (by decide)

/-- Claim C9: implicit safety.  In every reachable ledger state with at least
one participant, `totalTickets` is positive — so the modulo in
`_selectWinner` never divides by zero — and the instrumented selection that
checks every `participants[mid]`/`participants[left]` access agrees with the
unchecked one (no access is out of bounds); the selection returns an owner. -/
theorem select_winner_safe (minP : Nat) (L : RaffleLedger) (hm : 0 < minP)
    (hR : Reachable minP L) (seed : Nat) (hne : L.participants ≠ []) :
    0 < L.totalTickets ∧
      selectWinnerChecked L seed = some (selectWinner L seed) ∧
      ∃ o, selectWinner L seed = .ok o := by
  have hinv := reachable_inv hm hR
  have hT := inv_nonempty_pos hinv hne
  refine ⟨hT, selectWinnerChecked_eq hinv hne seed, ?_⟩
  obtain ⟨j, hj, hc, heq⟩ := selectWinner_char hinv hT seed
  exact ⟨_, heq⟩

/-- Witness for C9 on a one-step reachable ledger at seed 3. -/
theorem select_winner_safe_witness :
    0 < (⟨[⟨7, 5⟩], 5⟩ : RaffleLedger).totalTickets ∧
      selectWinnerChecked ⟨[⟨7, 5⟩], 5⟩ 3 =
        some (selectWinner ⟨[⟨7, 5⟩], 5⟩ 3) ∧
      ∃ o, selectWinner ⟨[⟨7, 5⟩], 5⟩ 3 = .ok o :=
  select_winner_safe 1 ⟨[⟨7, 5⟩], 5⟩ (by decide)
    (Reachable.step Reachable.empty
      (show buyTickets 1 emptyLedger 7 5 = .ok ⟨[⟨7, 5⟩], 5⟩ by decide))
    3 (by decide)

/-- Claim C10: implicit termination.  The binary-search loop, run as an
iteration-counted process with a budget of `participants.length` steps —
which bounds the initial measure `right - left` plus one — always exits and
computes the same total selection function `selectWinner` defined by
well-founded recursion on `right - left`. -/
theorem selection_loop_terminates (L : RaffleLedger) (seed : Nat) :
    selectWinnerFuel L seed = some (selectWinner L seed) := by
  rw [selectWinnerFuel, selectWinner]
  by_cases h1 : L.participants.length = 0
  · rw [if_pos h1, if_pos h1]
  · rw [if_neg h1, if_neg h1]
    by_cases h2 : L.totalTickets = 0
    · rw [if_pos h2, if_pos h2]
    · rw [if_neg h2, if_neg h2,
        binSearchFuel_eq (boundsOf L) (seed % L.totalTickets)
          L.participants.length 0 (L.participants.length - 1) (by omega)]
      rfl
